import Mathlib

/-!
Verification of the revision-history projection in `kuma/wiki/views/list.py`
(the `revisions` view and its nested `get_previous` linker).

The data model and the operations are translated from the Python source.
`paginate` (from `kuma.core.utils`) and `DOCUMENTS_PER_PAGE` (from
`kuma.wiki.constants`) are imported by the view but are not part of the
source tree; they are modelled from the specification where noted.
-/

set_option maxRecDepth 4000

/-- A wiki revision as the view consumes it: primary key, creation timestamp,
approval flag, and the optional cross-document `based_on` reference (a revision
of the parent-language document, set on the first revision of a translation). -/
inductive Revision where
  | mk (pk : Nat) (created : Nat) (is_approved : Bool) (based_on : Option Revision) : Revision

def Revision.pk : Revision → Nat
  | .mk p _ _ _ => p

def Revision.created : Revision → Nat
  | .mk _ c _ _ => c

def Revision.is_approved : Revision → Bool
  | .mk _ _ a _ => a

def Revision.based_on : Revision → Option Revision
  | .mk _ _ _ b => b

/-- A document as the view consumes it: its (nullable) current revision and its
(nullable) translation parent document. -/
inductive Document where
  | mk (current_revision : Option Revision) (parent : Option Document) : Document

def Document.current_revision : Document → Option Revision
  | .mk c _ => c

def Document.parent : Document → Option Document
  | .mk _ p => p

def Revision.decEq : (a b : Revision) → Decidable (a = b)
  | .mk p c ap bo, .mk p' c' ap' bo' =>
    have hbo : Decidable (bo = bo') :=
      match bo, bo' with
      | none, none => isTrue rfl
      | some x, some y =>
        match Revision.decEq x y with
        | isTrue h => isTrue (by rw [h])
        | isFalse h => isFalse (by intro hh; injection hh; contradiction)
      | none, some _ => isFalse (by intro hh; injection hh)
      | some _, none => isFalse (by intro hh; injection hh)
    match Nat.decEq p p', Nat.decEq c c', instDecidableEqBool ap ap', hbo with
    | isTrue h1, isTrue h2, isTrue h3, isTrue h4 => isTrue (by rw [h1, h2, h3, h4])
    | isFalse h1, _, _, _ => isFalse (by intro hh; injection hh; contradiction)
    | _, isFalse h2, _, _ => isFalse (by intro hh; injection hh; contradiction)
    | _, _, isFalse h3, _ => isFalse (by intro hh; injection hh; contradiction)
    | _, _, _, isFalse h4 => isFalse (by intro hh; injection hh; contradiction)

instance : DecidableEq Revision := Revision.decEq

/-- A revision as it appears in the projected result: the underlying revision
together with the transient `previous_revision` annotation that `get_previous`
writes onto it (absent on revisions fresh from the database). -/
structure RevItem where
  rev : Revision
  previous_revision : Option Revision
deriving DecidableEq

/-- The database ordering key used by `order_by('created', 'id')`: ascending by
`(created, id)` with the id as tiebreak. -/
def revLe (a b : Revision) : Prop :=
  a.created < b.created ∨ (a.created = b.created ∧ a.pk ≤ b.pk)

instance : DecidableRel revLe := fun a b => by
  unfold revLe; infer_instance

instance : IsTotal Revision revLe :=
  ⟨fun a b => by unfold revLe; omega⟩

instance : IsTrans Revision revLe :=
  ⟨fun a b c hab hbc => by unfold revLe at *; omega⟩

theorem revLe_refl (a : Revision) : revLe a a := Or.inr ⟨rfl, Nat.le_refl _⟩

/-- The queryset ordering `order_by('created', 'id')`: the revision list in
ascending `(created, id)` order. -/
def orderByCreatedId (revs : List Revision) : List Revision :=
  List.insertionSort revLe revs

/-- The chained `order_by('created', 'id').reverse()`: descending
`(created, id)` order, the order in which the queryset is actually
evaluated. -/
def descByCreatedId (revs : List Revision) : List Revision :=
  (orderByCreatedId revs).reverse

/-- The inner loop of `get_previous` for one `current_revision`: scan the list
in its given order, skip unapproved revisions and the revision itself, and take
the first remaining one with a strictly earlier `created`. -/
def find_previous (revs : List Revision) (current : Revision) : Option Revision :=
  revs.find? fun p =>
    p.is_approved && p.pk != current.pk && decide (p.created < current.created)

/-- The nested `get_previous` function of the view: annotate every revision of
the list with the first qualifying predecessor found while scanning the same
list in its given order. -/
def get_previous (items : List RevItem) : List RevItem :=
  items.map fun it => ⟨it.rev, find_previous (items.map RevItem.rev) it.rev⟩

/-- The linked sequence the view builds: the revisions sorted descending by
`(created, id)` (the `.reverse()`d queryset), each annotated by `get_previous`
(applied by `.transform` when the queryset is evaluated). -/
def link_revisions (revs : List Revision) : List RevItem :=
  get_previous ((descByCreatedId revs).map fun r => ⟨r, none⟩)

/-- Modelled from the spec: the documented default page size
(`kuma.wiki.constants.DOCUMENTS_PER_PAGE`, imported by the view but not under
the provided sources; upstream kuma sets it to 100). -/
def DOCUMENTS_PER_PAGE : Int := 100

def digitsVal (cs : List Char) : Option Nat :=
  if !cs.isEmpty && cs.all Char.isDigit then
    some (cs.foldl (fun n c => 10 * n + (c.toNat - 48)) 0)
  else none

/-- Surrounding-whitespace stripping, as Python `int()` performs on its string
argument before parsing. -/
def stripChars (cs : List Char) : List Char :=
  ((cs.dropWhile Char.isWhitespace).reverse.dropWhile Char.isWhitespace).reverse

/-- Python `int()` applied to a string: optional surrounding whitespace, an
optional sign, then decimal digits (numeric-literal underscores and non-ASCII
digits are not modelled). `none` where Python raises `ValueError`. -/
def pyInt (s : String) : Option Int :=
  match stripChars s.toList with
  | '-' :: rest => (digitsVal rest).map fun n => -(n : Int)
  | '+' :: rest => (digitsVal rest).map fun n => (n : Int)
  | cs => (digitsVal cs).map fun n => (n : Int)

/-- Whether `request.GET.get('limit', 10)` compares equal to the string
`'all'`: only a present parameter can (the absent default is the integer 10). -/
def limitIsAll : Option String → Bool
  | some s => s == "all"
  | none => false

/-- Lines 167 and 184-188 of the view: the missing parameter defaults to the
integer 10; a present, non-`'all'` value is parsed with `int()`, and only a
`ValueError` (not a non-positive value) falls back to `DOCUMENTS_PER_PAGE`. -/
def resolve_per_page : Option String → Int
  | none => 10
  | some s =>
    match pyInt s with
    | some n => n
    | none => DOCUMENTS_PER_PAGE

/-- The pagination descriptor the rendered context exposes: the effective page
number, the per-page size the paginator was built with, and the has-next flag. -/
structure PageInfo where
  number : Nat
  per_page : Int
  has_next : Bool
deriving DecidableEq

/-- Modelled from the spec: `kuma.core.utils.paginate` is not under the
provided sources. Standard fixed-size pagination of the already-ordered list:
page 1 holds the first `per_page` items, an out-of-range page number falls back
to page 1, and a has-next indicator is reported. Django's `Paginator` raises
for a non-positive `per_page` before producing any page, which kuma's wrapper
does not catch; that unhandled-exception outcome is the `none` result. -/
def numPages (count k : Nat) : Nat :=
  (count + k - 1) / k

def effectiveNumber (pageNum np : Nat) : Nat :=
  if 1 ≤ pageNum ∧ pageNum ≤ np then pageNum else 1

def paginate (items : List RevItem) (per_page : Int) (pageNum : Nat) :
    Option (List RevItem × PageInfo) :=
  if 0 < per_page then
    some ((items.drop
            ((effectiveNumber pageNum (numPages items.length per_page.toNat) - 1)
              * per_page.toNat)).take per_page.toNat,
          ⟨effectiveNumber pageNum (numPages items.length per_page.toNat), per_page,
           decide (effectiveNumber pageNum (numPages items.length per_page.toNat) <
             numPages items.length per_page.toNat)⟩)
  else none

/-- Lines 195-200 of the view: when the window is the last one (`page` is
`None` in the `'all'` branch, or `has_next()` is false) and the document has a
parent, read `all_revisions[-1].based_on` and append it when set. Reading the
last element of an empty batch would raise `IndexError` in Python; that is the
`none` result. -/
def attach_translation_parent (doc : Document) (batch : List RevItem)
    (isLast : Bool) : Option (List RevItem) :=
  if isLast && doc.parent.isSome then
    match batch.getLast? with
    | none => none
    | some lastItem =>
      match lastItem.rev.based_on with
      | some f => some (batch ++ [⟨f, none⟩])
      | none => some batch
  else some batch

/-- The observable outcome of the `revisions` view. -/
inductive ViewResult where
  | forbidden (reason : String)
  | notFound
  | paginationError
  | indexError
  | ok (revisions : List RevItem) (page : Option PageInfo)
deriving DecidableEq

/-- The `revisions` view (lines 140-207), for a document that was found:
404 when the document has no current revision; 403 with the
`revisions_login_required` reason when an unauthenticated caller asks for
`limit=all`; 404 when the document's revision set is empty; otherwise the
linked descending sequence, either whole (`'all'` mode, `page` is `None`) or
paginated, with the translation parent conditionally appended. -/
def revisionsView (authenticated : Bool) (doc : Document) (revs : List Revision)
    (limit : Option String) (pageNum : Nat) : ViewResult :=
  if doc.current_revision.isNone then .notFound
  else if !authenticated && limitIsAll limit then .forbidden "revisions_login_required"
  else if revs.isEmpty then .notFound
  else if limitIsAll limit then
    match attach_translation_parent doc (link_revisions revs) true with
    | none => .indexError
    | some lst => .ok lst none
  else
    match paginate (link_revisions revs) (resolve_per_page limit) pageNum with
    | none => .paginationError
    | some (batch, pi) =>
      match attach_translation_parent doc batch (!pi.has_next) with
      | none => .indexError
      | some lst => .ok lst (some pi)

/-! ### Structural lemmas about the linker -/

theorem map_rev_init (L : List Revision) :
    ((L.map fun r => (⟨r, none⟩ : RevItem)).map RevItem.rev) = L := by
  rw [List.map_map]
  exact List.map_id L

/-- The linker annotates each element of the descending sequence with the
first qualifying predecessor found by scanning that same sequence. -/
theorem link_revisions_eq_map (revs : List Revision) :
    link_revisions revs =
      (descByCreatedId revs).map
        (fun r => ⟨r, find_previous (descByCreatedId revs) r⟩) := by
  unfold link_revisions get_previous
  rw [map_rev_init, List.map_map]
  rfl

theorem length_link_revisions (revs : List Revision) :
    (link_revisions revs).length = revs.length := by
  rw [link_revisions_eq_map]
  simp [descByCreatedId, orderByCreatedId]

theorem link_revisions_ne_nil {revs : List Revision} (h : revs ≠ []) :
    link_revisions revs ≠ [] := by
  intro hl
  apply h
  have hlen := congrArg List.length hl
  rw [length_link_revisions] at hlen
  exact List.length_eq_zero.mp hlen

theorem mem_descByCreatedId {revs : List Revision} {a : Revision} :
    a ∈ descByCreatedId revs ↔ a ∈ revs := by
  unfold descByCreatedId orderByCreatedId
  simp

theorem pairwise_descByCreatedId (revs : List Revision) :
    (descByCreatedId revs).Pairwise fun a b => revLe b a := by
  unfold descByCreatedId
  rw [List.pairwise_reverse]
  exact List.sorted_insertionSort revLe revs

/-- The qualification test of the inner loop of `get_previous`, as a
proposition: approved, not the same row, strictly earlier creation time. -/
def qualifies (r p : Revision) : Prop :=
  p.is_approved = true ∧ p.pk ≠ r.pk ∧ p.created < r.created

instance (r p : Revision) : Decidable (qualifies r p) := by
  unfold qualifies; infer_instance

theorem qualifies_iff (r p : Revision) :
    (p.is_approved && p.pk != r.pk && decide (p.created < r.created)) = true ↔
      qualifies r p := by
  simp [qualifies, Bool.and_eq_true, bne_iff_ne, decide_eq_true_eq, and_assoc]

/-- In a list that is sorted descending, the first element satisfying a
predicate is maximal among all elements satisfying it. -/
theorem find_desc_max {P : Revision → Bool} :
    ∀ {L : List Revision}, L.Pairwise (fun a b => revLe b a) →
      ∀ {q : Revision}, L.find? P = some q → ∀ p ∈ L, P p = true → revLe p q := by
  intro L
  induction L with
  | nil => intro _ q hf; simp at hf
  | cons a t ih =>
    intro hpw q hf p hp hP
    rcases List.pairwise_cons.mp hpw with ⟨ha, ht⟩
    by_cases hPa : P a = true
    · rw [List.find?_cons_of_pos _ hPa] at hf
      injection hf with hqa
      subst hqa
      rcases List.mem_cons.mp hp with rfl | hpt
      · exact revLe_refl _
      · exact ha p hpt
    · rw [List.find?_cons_of_neg _ hPa] at hf
      rcases List.mem_cons.mp hp with rfl | hpt
      · exact absurd hP hPa
      · exact ih ht hf p hpt hP

/-! ### Concrete revisions used in scenario and witness statements -/

def scenarioR1 : Revision := .mk 1 1 true none

def scenarioR2 : Revision := .mk 2 2 false none

def scenarioR3 : Revision := .mk 3 3 true none

/-- Claim C7: for the revision set R1 (t=1, approved), R2 (t=2, unapproved),
R3 (t=3, approved), the linker yields R3.previousRevision = R1,
R2.previousRevision = R1, and R1.previousRevision unset (the projected
sequence being in descending creation order). -/
theorem C7_scenario_a :
    link_revisions [scenarioR1, scenarioR2, scenarioR3] =
      [⟨scenarioR3, some scenarioR1⟩, ⟨scenarioR2, some scenarioR1⟩,
       ⟨scenarioR1, none⟩] := by
  decide

theorem get_previous_map_rev (items : List RevItem) :
    (get_previous items).map RevItem.rev = items.map RevItem.rev := by
  unfold get_previous
  rw [List.map_map]
  rfl

/-- Claim C8: the linker is idempotent — running `get_previous` a second time
on its own output recomputes exactly the same `previous_revision` annotations,
because the scan reads only the immutable revision fields. -/
theorem C8_idempotent (items : List RevItem) :
    get_previous (get_previous items) = get_previous items := by
  have h1 := get_previous_map_rev items
  calc get_previous (get_previous items)
      = (get_previous items).map
          (fun it => ⟨it.rev,
            find_previous ((get_previous items).map RevItem.rev) it.rev⟩) := rfl
    _ = (get_previous items).map
          (fun it => ⟨it.rev, find_previous (items.map RevItem.rev) it.rev⟩) := by
          rw [h1]
    _ = items.map
          (fun it => ⟨it.rev, find_previous (items.map RevItem.rev) it.rev⟩) := by
          unfold get_previous
          rw [List.map_map]
          rfl
    _ = get_previous items := rfl

/-- Claim C4: an unauthenticated request with the `all` flag fails with the 403
condition and its machine-readable reason code, for any revision set (the
result carries no revision data), provided the document passed the
current-revision gate. -/
theorem C4_unauthorized_all (doc : Document) (revs : List Revision)
    (pageNum : Nat) (h : doc.current_revision.isSome) :
    revisionsView false doc revs (some "all") pageNum =
      ViewResult.forbidden "revisions_login_required" := by
  obtain ⟨r, hr⟩ := Option.isSome_iff_exists.mp h
  unfold revisionsView
  rw [hr]
  simp [limitIsAll]

/-- Witness for C4 at a concrete document with an empty revision set. -/
theorem C4_witness :
    revisionsView false (Document.mk (some scenarioR1) none) [] (some "all") 0 =
      ViewResult.forbidden "revisions_login_required" :=
  C4_unauthorized_all (Document.mk (some scenarioR1) none) [] 0 (by decide)

/-- Claim C2: every `previous_revision` annotation the projection sets points
to a revision that is approved, is a different row, is not the revision
itself, and was created strictly earlier — so two revisions with equal
`created` are never linked to each other. -/
theorem C2_link_invariant (revs : List Revision) (i : Nat)
    (h : i < (link_revisions revs).length) (q : Revision)
    (hq : ((link_revisions revs).get ⟨i, h⟩).previous_revision = some q) :
    q.is_approved = true ∧
    q.pk ≠ ((link_revisions revs).get ⟨i, h⟩).rev.pk ∧
    q ≠ ((link_revisions revs).get ⟨i, h⟩).rev ∧
    q.created < ((link_revisions revs).get ⟨i, h⟩).rev.created := by
  simp only [link_revisions_eq_map, List.get_eq_getElem, List.getElem_map] at hq ⊢
  have hpred := List.find?_some hq
  rw [qualifies_iff] at hpred
  obtain ⟨h1, h2, h3⟩ := hpred
  refine ⟨h1, h2, ?_, h3⟩
  intro he
  rw [he] at h3
  exact Nat.lt_irrefl _ h3

/-- Witness for C2 on scenario A: the annotation computed for R3 satisfies the
invariant. -/
theorem C2_witness :
    scenarioR1.is_approved = true ∧
    scenarioR1.pk ≠
      ((link_revisions [scenarioR1, scenarioR2, scenarioR3]).get
        ⟨0, by decide⟩).rev.pk ∧
    scenarioR1 ≠
      ((link_revisions [scenarioR1, scenarioR2, scenarioR3]).get
        ⟨0, by decide⟩).rev ∧
    scenarioR1.created <
      ((link_revisions [scenarioR1, scenarioR2, scenarioR3]).get
        ⟨0, by decide⟩).rev.created :=
  C2_link_invariant [scenarioR1, scenarioR2, scenarioR3] 0 (by decide)
    scenarioR1 (by decide)

/-! ### Claim C1: the direction of the predecessor scan -/

/-- The linker as claim C1 (spec section 4.1) words it: scan the candidates in
ascending `(createdAt, id)` creation order and take the first approved,
distinct, strictly earlier revision — the earliest approved predecessor. -/
def spec_find_previous (revs : List Revision) (current : Revision) :
    Option Revision :=
  (orderByCreatedId revs).find? fun p =>
    p.is_approved && p.pk != current.pk && decide (p.created < current.created)

def cx1 : Revision := .mk 1 1 true none

def cx2 : Revision := .mk 2 2 true none

def cx3 : Revision := .mk 3 3 true none

/-- Claim C1 is false on the code: with three approved revisions at t=1,2,3
the queryset handed to `get_previous` is in descending order (the chain is
`order_by('created', 'id').reverse()`), so the revision at t=3 is linked to the
nearest approved predecessor (t=2), not the earliest one (t=1) that the
ascending-scan contract demands. -/
theorem C1_counterexample :
    link_revisions [cx1, cx2, cx3] =
      [⟨cx3, some cx2⟩, ⟨cx2, some cx1⟩, ⟨cx1, none⟩] ∧
    spec_find_previous [cx1, cx2, cx3] cx3 = some cx1 ∧
    some cx2 ≠ some cx1 := by
  decide

/-- Claim C1 as amended: the linker scans the candidates in descending
`(createdAt, id)` order, so every revision whose annotation is set is linked to
the greatest — i.e. temporally nearest — approved, distinct, strictly earlier
revision, and the annotation stays unset exactly when no such candidate
exists. -/
theorem C1_nearest_predecessor (revs : List Revision) (i : Nat)
    (h : i < (link_revisions revs).length) :
    (((link_revisions revs).get ⟨i, h⟩).previous_revision = none →
      ∀ p ∈ revs, ¬ qualifies ((link_revisions revs).get ⟨i, h⟩).rev p) ∧
    ∀ q, ((link_revisions revs).get ⟨i, h⟩).previous_revision = some q →
      q ∈ revs ∧ qualifies ((link_revisions revs).get ⟨i, h⟩).rev q ∧
      ∀ p ∈ revs, qualifies ((link_revisions revs).get ⟨i, h⟩).rev p → revLe p q := by
  simp only [link_revisions_eq_map, List.get_eq_getElem, List.getElem_map]
  unfold find_previous
  constructor
  · intro hnone p hp hqual
    have hmem : p ∈ descByCreatedId revs := mem_descByCreatedId.mpr hp
    have := List.find?_eq_none.mp hnone p hmem
    exact this ((qualifies_iff _ _).mpr hqual)
  · intro q hq
    refine ⟨?_, ?_, ?_⟩
    · exact mem_descByCreatedId.mp (List.mem_of_find?_eq_some hq)
    · have hb := List.find?_some hq
      exact (qualifies_iff _ _).mp hb
    · intro p hp hqual
      exact find_desc_max (pairwise_descByCreatedId revs) hq p
        (mem_descByCreatedId.mpr hp) ((qualifies_iff _ _).mpr hqual)

/-- Witness for the amended C1: in the all-approved scenario the code links the
revision at t=3 to the revision at t=2, which is the maximal qualifying
candidate. -/
theorem C1_witness :
    cx2 ∈ [cx1, cx2, cx3] ∧
    qualifies ((link_revisions [cx1, cx2, cx3]).get ⟨0, by decide⟩).rev cx2 ∧
    ∀ p ∈ [cx1, cx2, cx3],
      qualifies ((link_revisions [cx1, cx2, cx3]).get ⟨0, by decide⟩).rev p →
        revLe p cx2 :=
  (C1_nearest_predecessor [cx1, cx2, cx3] 0 (by decide)).2 cx2 (by decide)

/-! ### Pagination lemmas -/

theorem numPages_pos {c k : Nat} (hc : 0 < c) (hk : 0 < k) : 0 < numPages c k := by
  unfold numPages
  have h1 : 1 ≤ (c + k - 1) / k := by
    rw [Nat.le_div_iff_mul_le hk]
    omega
  omega

theorem le_numPages_mul {c k : Nat} (hk : 0 < k) : c ≤ numPages c k * k := by
  unfold numPages
  have hdm := Nat.div_add_mod (c + k - 1) k
  have hm : (c + k - 1) % k < k := Nat.mod_lt _ hk
  have hcomm : (c + k - 1) / k * k = k * ((c + k - 1) / k) := Nat.mul_comm _ _
  omega

theorem numPages_pred_mul_lt {c k : Nat} (hc : 0 < c) (hk : 0 < k) :
    (numPages c k - 1) * k < c := by
  have h1 : (numPages c k - 1) * k = numPages c k * k - k := by
    rw [Nat.sub_mul, one_mul]
  unfold numPages at h1 ⊢
  have hdm := Nat.div_add_mod (c + k - 1) k
  have hm : (c + k - 1) % k < k := Nat.mod_lt _ hk
  have hcomm : (c + k - 1) / k * k = k * ((c + k - 1) / k) := Nat.mul_comm _ _
  omega

theorem effectiveNumber_ge_one (pageNum np : Nat) : 1 ≤ effectiveNumber pageNum np := by
  unfold effectiveNumber
  split <;> omega

theorem effectiveNumber_le {pageNum np : Nat} (h : 1 ≤ np) :
    effectiveNumber pageNum np ≤ np := by
  unfold effectiveNumber
  split <;> omega

theorem paginate_nonpos {pp : Int} (items : List RevItem) (h : pp ≤ 0) (n : Nat) :
    paginate items pp n = none := by
  unfold paginate
  rw [if_neg (by omega)]

theorem paginate_pos (items : List RevItem) {pp : Int} (h : 0 < pp) (n : Nat) :
    ∃ batch pi, paginate items pp n = some (batch, pi) ∧ pi.per_page = pp := by
  unfold paginate
  rw [if_pos h]
  exact ⟨_, _, rfl, rfl⟩

theorem getLast?_drop_of_ne_nil {α : Type} {l : List α} {m : Nat}
    (h : l.drop m ≠ []) : (l.drop m).getLast? = l.getLast? := by
  conv_rhs => rw [← List.take_append_drop m l]
  rw [List.getLast?_append]
  cases hd : (l.drop m).getLast? with
  | none => exact absurd (List.getLast?_eq_none_iff.mp hd) h
  | some x => rfl

/-- Every page the modelled paginator returns for a non-empty list is itself
non-empty, contains only items of the list, and, when it is the last page, ends
exactly where the full list ends. -/
theorem paginate_batch_props {items : List RevItem} {pp : Int} {n : Nat}
    {batch : List RevItem} {pi : PageInfo} (hne : items ≠ [])
    (h : paginate items pp n = some (batch, pi)) :
    batch ≠ [] ∧ (∀ x ∈ batch, x ∈ items) ∧
    (pi.has_next = false → batch.getLast? = items.getLast?) := by
  unfold paginate at h
  by_cases hpp : 0 < pp
  · rw [if_pos hpp] at h
    injection h with h'
    injection h' with hb hpi
    subst hb
    subst hpi
    have hk : 0 < pp.toNat := by omega
    have hc : 0 < items.length := List.length_pos.mpr hne
    have hnp : 0 < numPages items.length pp.toNat := numPages_pos hc hk
    have hnum1 : 1 ≤ effectiveNumber n (numPages items.length pp.toNat) :=
      effectiveNumber_ge_one _ _
    have hnumle : effectiveNumber n (numPages items.length pp.toNat) ≤
        numPages items.length pp.toNat := effectiveNumber_le hnp
    have hmlt : (effectiveNumber n (numPages items.length pp.toNat) - 1) * pp.toNat <
        items.length := by
      calc (effectiveNumber n (numPages items.length pp.toNat) - 1) * pp.toNat
          ≤ (numPages items.length pp.toNat - 1) * pp.toNat :=
            Nat.mul_le_mul_right _ (by omega)
        _ < items.length := numPages_pred_mul_lt hc hk
    refine ⟨?_, ?_, ?_⟩
    · apply List.ne_nil_of_length_pos
      rw [List.length_take, List.length_drop]
      omega
    · intro x hx
      exact List.drop_subset _ _ (List.take_subset _ _ hx)
    · intro hnext
      simp only [decide_eq_false_iff_not, Nat.not_lt] at hnext
      have heq : effectiveNumber n (numPages items.length pp.toNat) =
          numPages items.length pp.toNat := by omega
      rw [heq]
      have hlenle : (items.drop ((numPages items.length pp.toNat - 1) * pp.toNat)).length ≤
          pp.toNat := by
        rw [List.length_drop]
        have h1 : (numPages items.length pp.toNat - 1) * pp.toNat =
            numPages items.length pp.toNat * pp.toNat - pp.toNat := by
          rw [Nat.sub_mul, one_mul]
        have h2 := le_numPages_mul (c := items.length) hk
        omega
      rw [List.take_of_length_le hlenle]
      apply getLast?_drop_of_ne_nil
      apply List.ne_nil_of_length_pos
      rw [List.length_drop]
      have := numPages_pred_mul_lt hc hk
      omega
  · rw [if_neg hpp] at h
    exact absurd h (by simp)

/-! ### Lemmas about the parent-append stage -/

theorem attach_ne_none {doc : Document} {batch : List RevItem} (hne : batch ≠ [])
    (isLast : Bool) : attach_translation_parent doc batch isLast ≠ none := by
  unfold attach_translation_parent
  by_cases hc : (isLast && doc.parent.isSome) = true
  · rw [if_pos hc]
    cases hl : batch.getLast? with
    | none => exact absurd (List.getLast?_eq_none_iff.mp hl) hne
    | some it => cases hb : it.rev.based_on <;> simp [hb]
  · rw [if_neg hc]
    simp

theorem attach_of_cond_false {doc : Document} {batch : List RevItem} {isLast : Bool}
    (hc : (isLast && doc.parent.isSome) = false) :
    attach_translation_parent doc batch isLast = some batch := by
  unfold attach_translation_parent
  rw [if_neg (by simp [hc])]

theorem attach_of_last {doc : Document} {batch : List RevItem} {isLast : Bool}
    {lastIt : RevItem} (hc : (isLast && doc.parent.isSome) = true)
    (hl : batch.getLast? = some lastIt) :
    attach_translation_parent doc batch isLast =
      some (match lastIt.rev.based_on with
            | some f => batch ++ [⟨f, none⟩]
            | none => batch) := by
  unfold attach_translation_parent
  rw [if_pos hc, hl]
  cases hb : lastIt.rev.based_on <;> simp [hb]

/-- Claim C10: the view never fails with an out-of-range access when reading
`all_revisions[-1]` in the translation-parent branch — the batch it indexes is
always non-empty, since empty histories were already rejected. -/
theorem C10_no_index_error (auth : Bool) (doc : Document) (revs : List Revision)
    (limit : Option String) (pageNum : Nat) :
    revisionsView auth doc revs limit pageNum ≠ ViewResult.indexError := by
  unfold revisionsView
  by_cases h1 : doc.current_revision.isNone = true
  · simp [h1]
  · have h1f : doc.current_revision.isNone = false := by
      simp only [Bool.not_eq_true] at h1
      exact h1
    by_cases h2 : (!auth && limitIsAll limit) = true
    · simp [h1f, h2]
    · have h2f : (!auth && limitIsAll limit) = false := by simpa using h2
      by_cases h3 : revs.isEmpty = true
      · simp [h1f, h2f, h3]
      · have h3f : revs.isEmpty = false := by simpa using h3
        have hrne : revs ≠ [] := by
          intro hr
          rw [hr] at h3f
          exact absurd h3f (by simp)
        have hlink : link_revisions revs ≠ [] := link_revisions_ne_nil hrne
        by_cases h4 : limitIsAll limit = true
        · have hauth : auth = true := by
            rw [h4] at h2f
            simpa using h2f
          cases hatt : attach_translation_parent doc (link_revisions revs) true with
          | none => exact absurd hatt (attach_ne_none hlink true)
          | some lst => simp [h1f, h2f, h3f, h4, hauth, hatt]
        · have h4f : limitIsAll limit = false := by simpa using h4
          cases hp : paginate (link_revisions revs) (resolve_per_page limit) pageNum with
          | none => simp [h1f, h2f, h3f, h4f, hp]
          | some pr =>
            obtain ⟨batch, pi⟩ := pr
            have hbne : batch ≠ [] := (paginate_batch_props hlink hp).1
            cases hatt : attach_translation_parent doc batch (!pi.has_next) with
            | none => exact absurd hatt (attach_ne_none hbne _)
            | some lst => simp [h1f, h2f, h3f, h4f, hp, hatt]

/-! ### Branch normalisation of the view -/

theorem view_unfold_main {auth : Bool} {doc : Document} {revs : List Revision}
    {limit : Option String} (pageNum : Nat)
    (h1 : doc.current_revision.isNone = false)
    (h2 : (!auth && limitIsAll limit) = false)
    (h3 : revs.isEmpty = false) :
    revisionsView auth doc revs limit pageNum =
      (if limitIsAll limit then
        match attach_translation_parent doc (link_revisions revs) true with
        | none => ViewResult.indexError
        | some lst => ViewResult.ok lst none
      else
        match paginate (link_revisions revs) (resolve_per_page limit) pageNum with
        | none => ViewResult.paginationError
        | some (batch, pi) =>
          match attach_translation_parent doc batch (!pi.has_next) with
          | none => ViewResult.indexError
          | some lst => ViewResult.ok lst (some pi)) := by
  unfold revisionsView
  rw [h1, h2, h3]
  simp

/-- Claim C5 as amended: the view fails with the not-found condition exactly
when the document has no current revision (regardless of the revision set), or
when the revision set is empty and the request is not the unauthorized-`all`
case, which fails with 403 first. The not-found result carries no revision
data. -/
theorem C5_not_found_iff (auth : Bool) (doc : Document) (revs : List Revision)
    (limit : Option String) (pageNum : Nat) :
    revisionsView auth doc revs limit pageNum = ViewResult.notFound ↔
      (doc.current_revision = none ∨
        (revs = [] ∧ (auth = true ∨ limitIsAll limit = false))) := by
  by_cases h1 : doc.current_revision.isNone = true
  · have hcn : doc.current_revision = none := by simpa using h1
    unfold revisionsView
    simp [h1, hcn]
  · have h1f : doc.current_revision.isNone = false := by
      simp only [Bool.not_eq_true] at h1
      exact h1
    have hcn : ¬ doc.current_revision = none := by
      intro hc
      rw [hc] at h1f
      exact absurd h1f (by simp)
    by_cases h2 : (!auth && limitIsAll limit) = true
    · obtain ⟨ha, hb⟩ := Bool.and_eq_true_iff.mp h2
      have hauth : auth = false := by simpa using ha
      have hview : revisionsView auth doc revs limit pageNum =
          ViewResult.forbidden "revisions_login_required" := by
        unfold revisionsView
        rw [h1f, h2]
        simp
      rw [hview]
      simp [hcn, hauth, hb]
    · have h2f : (!auth && limitIsAll limit) = false := by
        simp only [Bool.not_eq_true] at h2
        exact h2
      have hdisj : auth = true ∨ limitIsAll limit = false := by
        cases auth with
        | false => exact Or.inr (by simpa using h2f)
        | true => exact Or.inl rfl
      by_cases h3 : revs.isEmpty = true
      · have hre : revs = [] := by simpa using h3
        have hview : revisionsView auth doc revs limit pageNum =
            ViewResult.notFound := by
          unfold revisionsView
          rw [h1f, h2f, h3]
          simp
        rw [hview]
        simp [hre, hdisj]
      · have h3f : revs.isEmpty = false := by
          simp only [Bool.not_eq_true] at h3
          exact h3
        have hrne : revs ≠ [] := by
          intro hr
          rw [hr] at h3f
          exact absurd h3f (by simp)
        have hne : revisionsView auth doc revs limit pageNum ≠
            ViewResult.notFound := by
          rw [view_unfold_main pageNum h1f h2f h3f]
          by_cases h4 : limitIsAll limit = true
          · rw [if_pos h4]
            cases hatt : attach_translation_parent doc (link_revisions revs) true with
            | none => simp
            | some lst => simp
          · rw [if_neg h4]
            cases hp : paginate (link_revisions revs) (resolve_per_page limit) pageNum with
            | none => simp
            | some pr =>
              obtain ⟨batch, pi⟩ := pr
              cases hatt : attach_translation_parent doc batch (!pi.has_next) with
              | none => simp [hatt]
              | some lst => simp [hatt]
        simp [hne, hcn, hrne]

/-- Claim C5 is false as literally stated: with an empty revision set, an
unauthenticated caller and the `all` flag, the view returns the 403 condition,
not the not-found one the empty-history rule demands. -/
theorem C5_counterexample :
    revisionsView false (Document.mk (some scenarioR1) none) [] (some "all") 1 =
      ViewResult.forbidden "revisions_login_required" ∧
    revisionsView false (Document.mk (some scenarioR1) none) [] (some "all") 1 ≠
      ViewResult.notFound := by
  decide

theorem view_paginated_ok {auth : Bool} {doc : Document} {revs : List Revision}
    {limit : Option String} (pageNum : Nat)
    (h1 : doc.current_revision.isNone = false)
    (h3 : revs ≠ []) (h4 : limitIsAll limit = false)
    (hpos : 0 < resolve_per_page limit) :
    ∃ lst pi, revisionsView auth doc revs limit pageNum =
        ViewResult.ok lst (some pi) ∧
      pi.per_page = resolve_per_page limit := by
  have h2 : (!auth && limitIsAll limit) = false := by rw [h4, Bool.and_false]
  have h3f : revs.isEmpty = false := by simpa using h3
  rw [view_unfold_main pageNum h1 h2 h3f,
    if_neg (by rw [h4]; exact Bool.false_ne_true)]
  obtain ⟨batch, pi, hp, hpp⟩ := paginate_pos (link_revisions revs) hpos pageNum
  have hbne : batch ≠ [] := (paginate_batch_props (link_revisions_ne_nil h3) hp).1
  cases hatt : attach_translation_parent doc batch (!pi.has_next) with
  | none => exact absurd hatt (attach_ne_none hbne _)
  | some lst =>
    refine ⟨lst, pi, ?_, hpp⟩
    rw [hp]
    show (match attach_translation_parent doc batch (!pi.has_next) with
          | none => ViewResult.indexError
          | some lst => ViewResult.ok lst (some pi)) = ViewResult.ok lst (some pi)
    rw [hatt]

/-- Claim C6 as amended: a page-size request value that is absent, or that is
not the `all` flag and does not parse as an integer, is replaced by a default
(the integer 10 when absent, `DOCUMENTS_PER_PAGE` when unparsable) and the
request then succeeds with no error surfaced. -/
theorem C6_default_substitution (auth : Bool) (doc : Document)
    (revs : List Revision) (limit : Option String) (pageNum : Nat)
    (hcur : doc.current_revision.isNone = false) (hrevs : revs ≠ [])
    (hlimit : limit = none ∨ ∃ s, limit = some s ∧ s ≠ "all" ∧ pyInt s = none) :
    ∃ lst pi, revisionsView auth doc revs limit pageNum =
        ViewResult.ok lst (some pi) ∧
      pi.per_page = (match limit with
                     | none => 10
                     | some _ => DOCUMENTS_PER_PAGE) := by
  rcases hlimit with hnone | ⟨s, hsome, hne, hparse⟩
  · subst hnone
    have hres : resolve_per_page none = 10 := rfl
    obtain ⟨lst, pi, hv, hpp⟩ :=
      view_paginated_ok pageNum hcur hrevs
        (show limitIsAll none = false from rfl) (by rw [hres]; omega)
    exact ⟨lst, pi, hv, by rw [hpp, hres]⟩
  · subst hsome
    have h4 : limitIsAll (some s) = false := by
      unfold limitIsAll
      simpa using hne
    have hres : resolve_per_page (some s) = DOCUMENTS_PER_PAGE := by
      show (match pyInt s with
            | some n => n
            | none => DOCUMENTS_PER_PAGE) = DOCUMENTS_PER_PAGE
      rw [hparse]
    obtain ⟨lst, pi, hv, hpp⟩ := view_paginated_ok pageNum hcur hrevs h4
      (by rw [hres]; unfold DOCUMENTS_PER_PAGE; omega)
    exact ⟨lst, pi, hv, by rw [hpp, hres]⟩

/-- Claim C6 is false as literally stated: the value `0` does not parse as a
positive integer, yet no default is substituted — the parsed 0 is handed to the
paginator, which fails instead of proceeding normally. -/
theorem C6_counterexample :
    resolve_per_page (some "0") = 0 ∧
    revisionsView true (Document.mk (some scenarioR1) none) [scenarioR1]
      (some "0") 1 = ViewResult.paginationError := by
  decide

/-- Witness for the amended C6 with an absent page-size value. -/
theorem C6_witness :
    ∃ lst pi,
      revisionsView true (Document.mk (some scenarioR1) none) [scenarioR1]
          none 1 = ViewResult.ok lst (some pi) ∧
      pi.per_page = (match (none : Option String) with
                     | none => 10
                     | some _ => DOCUMENTS_PER_PAGE) :=
  C6_default_substitution true (Document.mk (some scenarioR1) none) [scenarioR1]
    none 1 (by decide) (by decide) (Or.inl rfl)

/-- Claim C9: a page-size value that parses as an integer is used verbatim —
no positivity check is applied. A positive value becomes the paginator's
per-page size unchanged; zero or a negative value is passed through unchanged
to the paginator, where Django's Paginator raises instead of substituting a
default. -/
theorem C9_verbatim_per_page (auth : Bool) (doc : Document)
    (revs : List Revision) (s : String) (n : Int) (pageNum : Nat)
    (hcur : doc.current_revision.isNone = false) (hrevs : revs ≠ [])
    (hparse : pyInt s = some n) :
    resolve_per_page (some s) = n ∧
    (0 < n → ∃ lst pi, revisionsView auth doc revs (some s) pageNum =
        ViewResult.ok lst (some pi) ∧ pi.per_page = n) ∧
    (n ≤ 0 → revisionsView auth doc revs (some s) pageNum =
        ViewResult.paginationError) := by
  have hsne : s ≠ "all" := by
    intro he
    rw [he] at hparse
    rw [show pyInt "all" = (none : Option Int) from rfl] at hparse
    exact Option.noConfusion hparse
  have h4 : limitIsAll (some s) = false := by
    unfold limitIsAll
    simpa using hsne
  have hres : resolve_per_page (some s) = n := by
    show (match pyInt s with
          | some n => n
          | none => DOCUMENTS_PER_PAGE) = n
    rw [hparse]
  refine ⟨hres, ?_, ?_⟩
  · intro hpos
    obtain ⟨lst, pi, hv, hpp⟩ := view_paginated_ok pageNum hcur hrevs h4
      (by rw [hres]; exact hpos)
    exact ⟨lst, pi, hv, by rw [hpp, hres]⟩
  · intro hneg
    have h2 : (!auth && limitIsAll (some s)) = false := by rw [h4, Bool.and_false]
    have h3f : revs.isEmpty = false := by simpa using hrevs
    rw [view_unfold_main pageNum hcur h2 h3f,
      if_neg (by rw [h4]; exact Bool.false_ne_true),
      paginate_nonpos _ (by rw [hres]; exact hneg) pageNum]

/-- Witness for C9: the value `0` parses as the integer 0 and is passed through
unchanged, so the paginator fails. -/
theorem C9_witness :
    revisionsView true (Document.mk (some scenarioR1) none) [scenarioR1]
      (some "0") 1 = ViewResult.paginationError :=
  (C9_verbatim_per_page true (Document.mk (some scenarioR1) none) [scenarioR1]
    "0" 0 1 (by decide) (by decide) (by decide)).2.2 (by decide)

/-! ### Claim C3: the translation-parent append -/

/-- The condition `not page or not page.has_next()` of line 195, evaluated on
the pagination descriptor exposed by the result: true for the unpaginated
`'all'` batch, and for a paginated batch exactly when it is the last page. -/
def isLastWindow : Option PageInfo → Bool
  | none => true
  | some pi => !pi.has_next

/-- Claim C3: the translation-parent append happens exactly when the shown
window is the last one (`'all'` mode or has-next false) and the document has a
parent; it then appends the `based_on` reference of the chronologically
earliest revision of the full ordered sequence (the last element of the
descending linked list) to the end of the batch when that reference is set,
and appends nothing — without error — when it is unset; in every other case no
foreign revision is appended. -/
theorem C3_translation_parent_append (auth : Bool) (doc : Document)
    (revs : List Revision) (limit : Option String) (pageNum : Nat)
    (lst : List RevItem) (pinfo : Option PageInfo)
    (hok : revisionsView auth doc revs limit pageNum = ViewResult.ok lst pinfo) :
    ((isLastWindow pinfo && doc.parent.isSome) = false →
      ∀ x ∈ lst, x ∈ link_revisions revs) ∧
    ((isLastWindow pinfo && doc.parent.isSome) = true →
      ∀ lastIt, (link_revisions revs).getLast? = some lastIt →
        (∀ f, lastIt.rev.based_on = some f →
          ∃ batch, lst = batch ++ [⟨f, none⟩] ∧ batch ≠ [] ∧
            batch.getLast? = some lastIt ∧ ∀ x ∈ batch, x ∈ link_revisions revs) ∧
        (lastIt.rev.based_on = none →
          lst ≠ [] ∧ lst.getLast? = some lastIt ∧
            ∀ x ∈ lst, x ∈ link_revisions revs)) := by
  by_cases h1 : doc.current_revision.isNone = true
  · unfold revisionsView at hok
    simp [h1] at hok
  · have h1f : doc.current_revision.isNone = false := by
      simp only [Bool.not_eq_true] at h1
      exact h1
    by_cases h2 : (!auth && limitIsAll limit) = true
    · unfold revisionsView at hok
      simp [h1f, h2] at hok
    · have h2f : (!auth && limitIsAll limit) = false := by
        simp only [Bool.not_eq_true] at h2
        exact h2
      by_cases h3 : revs.isEmpty = true
      · unfold revisionsView at hok
        simp [h1f, h2f, h3] at hok
      · have h3f : revs.isEmpty = false := by
          simp only [Bool.not_eq_true] at h3
          exact h3
        have hrne : revs ≠ [] := by
          intro hr
          rw [hr] at h3f
          exact absurd h3f (by simp)
        have hlink : link_revisions revs ≠ [] := link_revisions_ne_nil hrne
        rw [view_unfold_main pageNum h1f h2f h3f] at hok
        by_cases h4 : limitIsAll limit = true
        · rw [if_pos h4] at hok
          cases hatt : attach_translation_parent doc (link_revisions revs) true with
          | none =>
            rw [hatt] at hok
            exact absurd hok (by simp)
          | some lst0 =>
            rw [hatt] at hok
            have hok2 : ViewResult.ok lst0 none = ViewResult.ok lst pinfo := hok
            injection hok2 with hlst hpinfo
            subst hpinfo
            subst hlst
            by_cases hpar : doc.parent.isSome = true
            · constructor
              · intro hcf
                rw [hpar] at hcf
                simp [isLastWindow] at hcf
              · intro _ lastIt hlast
                have hattL := attach_of_last
                  (show (true && doc.parent.isSome) = true by simp [hpar]) hlast
                rw [hattL] at hatt
                injection hatt with hmatch
                cases hb : lastIt.rev.based_on with
                | some f =>
                  rw [hb] at hmatch
                  have h5 : link_revisions revs ++ [⟨f, none⟩] = lst0 := hmatch
                  constructor
                  · intro f' hbf
                    injection hbf with hf
                    subst hf
                    exact ⟨link_revisions revs, h5.symm, hlink, hlast,
                      fun x hx => hx⟩
                  · intro hbn
                    exact Option.noConfusion hbn
                | none =>
                  rw [hb] at hmatch
                  have h5 : link_revisions revs = lst0 := hmatch
                  constructor
                  · intro f' hbf
                    exact Option.noConfusion hbf
                  · intro _
                    refine ⟨?_, ?_, ?_⟩
                    · rw [← h5]; exact hlink
                    · rw [← h5]; exact hlast
                    · intro x hx
                      rw [← h5] at hx
                      exact hx
            · have hparf : doc.parent.isSome = false := by
                simp only [Bool.not_eq_true] at hpar
                exact hpar
              have hattc := @attach_of_cond_false doc (link_revisions revs) true
                (show (true && doc.parent.isSome) = false by rw [hparf, Bool.and_false])
              rw [hatt] at hattc
              injection hattc with hbl
              constructor
              · intro _ x hx
                rw [hbl] at hx
                exact hx
              · intro hc
                rw [hparf, Bool.and_false] at hc
                exact Bool.noConfusion hc
        · rw [if_neg h4] at hok
          cases hp : paginate (link_revisions revs) (resolve_per_page limit) pageNum with
          | none =>
            rw [hp] at hok
            exact absurd hok (by simp)
          | some pr =>
            obtain ⟨batch, pi⟩ := pr
            rw [hp] at hok
            have hok2 : (match attach_translation_parent doc batch (!pi.has_next) with
                | none => ViewResult.indexError
                | some lst => ViewResult.ok lst (some pi)) =
                ViewResult.ok lst pinfo := hok
            obtain ⟨hbne, hsub, hlastslice⟩ := paginate_batch_props hlink hp
            cases hatt : attach_translation_parent doc batch (!pi.has_next) with
            | none =>
              rw [hatt] at hok2
              exact absurd hok2 (by simp)
            | some lst0 =>
              rw [hatt] at hok2
              have hok3 : ViewResult.ok lst0 (some pi) = ViewResult.ok lst pinfo := hok2
              injection hok3 with hlst hpinfo
              subst hpinfo
              subst hlst
              by_cases hnext : pi.has_next = true
              · have hcf : (!pi.has_next && doc.parent.isSome) = false := by
                  rw [hnext]
                  simp
                have hattc := @attach_of_cond_false doc batch (!pi.has_next) hcf
                rw [hatt] at hattc
                injection hattc with hbl
                constructor
                · intro _ x hx
                  apply hsub
                  rw [hbl] at hx
                  exact hx
                · intro hc
                  rw [show isLastWindow (some pi) = false by simp [isLastWindow, hnext]] at hc
                  rw [Bool.false_and] at hc
                  exact Bool.noConfusion hc
              · have hnf : pi.has_next = false := by
                  simp only [Bool.not_eq_true] at hnext
                  exact hnext
                have hbl : batch.getLast? = (link_revisions revs).getLast? :=
                  hlastslice hnf
                by_cases hpar : doc.parent.isSome = true
                · constructor
                  · intro hcf
                    rw [show isLastWindow (some pi) = true by simp [isLastWindow, hnf],
                      hpar] at hcf
                    exact Bool.noConfusion hcf
                  · intro _ lastIt hlast
                    have hblast : batch.getLast? = some lastIt := by rw [hbl, hlast]
                    have hattL := attach_of_last
                      (show (!pi.has_next && doc.parent.isSome) = true by
                        simp [hnf, hpar]) hblast
                    rw [hattL] at hatt
                    injection hatt with hmatch
                    cases hb : lastIt.rev.based_on with
                    | some f =>
                      rw [hb] at hmatch
                      have h5 : batch ++ [⟨f, none⟩] = lst0 := hmatch
                      constructor
                      · intro f' hbf
                        injection hbf with hf
                        subst hf
                        exact ⟨batch, h5.symm, hbne, hblast, hsub⟩
                      · intro hbn
                        exact Option.noConfusion hbn
                    | none =>
                      rw [hb] at hmatch
                      have h5 : batch = lst0 := hmatch
                      constructor
                      · intro f' hbf
                        exact Option.noConfusion hbf
                      · intro _
                        refine ⟨?_, ?_, ?_⟩
                        · rw [← h5]; exact hbne
                        · rw [← h5]; exact hblast
                        · intro x hx
                          apply hsub
                          rw [← h5] at hx
                          exact hx
                · have hparf : doc.parent.isSome = false := by
                    simp only [Bool.not_eq_true] at hpar
                    exact hpar
                  have hattc := @attach_of_cond_false doc batch (!pi.has_next)
                    (show (!pi.has_next && doc.parent.isSome) = false by
                      rw [hparf, Bool.and_false])
                  rw [hatt] at hattc
                  injection hattc with hbl2
                  constructor
                  · intro _ x hx
                    apply hsub
                    rw [hbl2] at hx
                    exact hx
                  · intro hc
                    rw [hparf, Bool.and_false] at hc
                    exact Bool.noConfusion hc

def foreignRev : Revision := .mk 9 0 true none

def translatedRev : Revision := .mk 5 1 true (some foreignRev)

def translatedDoc : Document :=
  .mk (some translatedRev) (some (Document.mk none none))

/-- Witness for C3: a one-revision translation on its last (only) page gets its
parent's revision appended at the end of the batch. -/
theorem C3_witness :
    (∀ f, (RevItem.mk translatedRev none).rev.based_on = some f →
      ∃ batch,
        [RevItem.mk translatedRev none, RevItem.mk foreignRev none] =
          batch ++ [⟨f, none⟩] ∧ batch ≠ [] ∧
        batch.getLast? = some (RevItem.mk translatedRev none) ∧
        ∀ x ∈ batch, x ∈ link_revisions [translatedRev]) ∧
    ((RevItem.mk translatedRev none).rev.based_on = none →
      [RevItem.mk translatedRev none, RevItem.mk foreignRev none] ≠ [] ∧
      [RevItem.mk translatedRev none,
        RevItem.mk foreignRev none].getLast? =
          some (RevItem.mk translatedRev none) ∧
      ∀ x ∈ [RevItem.mk translatedRev none, RevItem.mk foreignRev none],
        x ∈ link_revisions [translatedRev]) :=
  (C3_translation_parent_append true translatedDoc [translatedRev] none 1
      [RevItem.mk translatedRev none, RevItem.mk foreignRev none]
      (some ⟨1, 10, false⟩) (by decide)).2 (by decide)
    (RevItem.mk translatedRev none) (by decide)
